import Mathlib

/-!
Verification of the proxperfect request-dispatch engine (proxperfect.go).

The program is a fan-out reverse proxy: every inbound HTTP request draws a
fresh ticket from a shared `uint32` counter, the ticket modulo the number of
configured backends selects the backend, and the request is either forwarded
through a reverse proxy (proxy mode) or answered with an HTTP redirect
(redirect mode).  Forwarding is admission-controlled by one weighted
semaphore per backend, and body streaming uses a `sync.Pool`-backed buffer
cache.

This file shallowly embeds that engine:

* ticket arithmetic and backend selection (`nextTicket`, `proxyIdxOf`,
  `selectBackend`, `selectSeq`) translate lines 224-225 / 254-255;
* `ParseArguments` translates the startup argument validation (lines 97-144),
  returning `none` on the paths where the Go process exits before serving;
* `RedirectHandler` translates lines 253-263;
* `poolGet` / `syncPoolGet` / `runPool` translate the `proxyBufferPool`
  methods (lines 60-77) on top of a nondeterministic `sync.Pool` cache;
* the labelled transition system `Step` / `Reachable` embeds the concurrent
  execution of `ProxyRequestHandler` (lines 222-250): one in-flight request
  per task, semaphore state per backend, with both the normal return of
  `proxy.ServeHTTP` and its abort path (the standard library's
  `ReverseProxy` panics with `http.ErrAbortHandler` when copying the
  response to a disconnected client fails, which skips the non-deferred
  `limiter.Release(1)` on line 247).
-/

/-- Modulus of Go `uint32` arithmetic: `atomic.AddUint32` and the
`uint32(...)` conversion both work modulo `2^32`. -/
def U32 : Nat := 4294967296

/-- The ticket draw `atomic.AddUint32(&proxyState.requestNum, 1)`
(proxperfect.go:224 and 254): increments the shared counter and returns the
new value, wrapping at the integer width. -/
def nextTicket (t : Nat) : Nat := (t + 1) % U32

/-- Backend index derivation `currentRequestNum % uint32(len(proxyState.proxies))`
(proxperfect.go:225 and 255).  The length is first converted to `uint32`,
hence the inner `% U32`. -/
def proxyIdxOf (ticket numProxies : Nat) : Nat := ticket % (numProxies % U32)

/-- One handler-entry selection step (lines 224-225, identical in both
handlers): returns the fresh ticket together with the backend index derived
from it. -/
def selectBackend (t numProxies : Nat) : Nat × Nat :=
  (nextTicket t, proxyIdxOf (nextTicket t) numProxies)

/-- Backend indices chosen by `M` strictly sequential handler invocations
when the stored counter holds `t` before the first of them. -/
def selectSeq (numProxies : Nat) : Nat → Nat → List Nat
  | 0, _ => []
  | M + 1, t => (selectBackend t numProxies).2 :: selectSeq numProxies M (selectBackend t numProxies).1

/-- The engine-relevant part of the Go `Config` struct (proxperfect.go:25-34).
The `showVersion` and `fdLimit` fields only affect the surrounding process
(version banner, rlimit tuning) and are handled as parameters of
`ParseArguments` respectively omitted. -/
structure Config where
  beVerbose : Bool
  listenPort : Int
  proxyStrings : List String
  poolBufSize : Int
  numConnsPerServer : Int
  redirectCode : Int
deriving Repr, DecidableEq

/-- `ParseArguments` (proxperfect.go:97-144), restricted to the decisions
that reach the engine.  `args` is `flag.Args()`, the positional backend
list.  The Go function calls `os.Exit` before the server ever starts when
the version flag is set (exit 0, line 119) or when no backend argument was
given (exit 1, line 132); both exit paths are `none`.  On `some`, the
returned configuration is what the handlers later read. -/
def ParseArguments (showVersion beVerbose : Bool)
    (listenPort poolBufSize numConnsPerServer redirectCode : Int)
    (args : List String) : Option Config :=
  if showVersion then
    none
  else if args.length = 0 then
    none
  else
    some ⟨beVerbose, listenPort, args, poolBufSize, numConnsPerServer, redirectCode⟩

/-- The observable content of the `http.Redirect(w, r, serverStr, config.redirectCode)`
call on line 262: the `Location` target string and the status code. -/
structure RedirectResponse where
  location : String
  code : Int
deriving Repr, DecidableEq

/-- `RedirectHandler` (proxperfect.go:253-263).  `requestNum` is the shared
counter before the call, `urlString` is `r.URL.String()` (the inbound
request's path and query).  `InitProxyState` appends exactly one proxy per
`flag.Args()` entry, so `len(proxyState.proxies) = len(config.proxyStrings)`
and the index computation on line 255 uses `cfg.proxyStrings.length`.
Returns the updated counter and the redirect response. -/
def RedirectHandler (cfg : Config) (requestNum : Nat) (urlString : String) :
    Nat × RedirectResponse :=
  let currentRequestNum := nextTicket requestNum
  let proxyIdx := proxyIdxOf currentRequestNum cfg.proxyStrings.length
  (currentRequestNum, ⟨cfg.proxyStrings.getD proxyIdx "" ++ urlString, cfg.redirectCode⟩)

/-- A byte buffer; only lengths matter to the stated properties, bytes are
modelled as `Nat`. -/
abbrev Buf := List Nat

/-- The `sync.Pool` behind `proxyBufferPool` (proxperfect.go:48-51), modelled
as the multiset of currently cached buffers.  `sync.Pool.Get` may return
`nil` at any time, even when entries were put earlier, because the cache is
garbage-collected under memory pressure; the `hit` flag selects between a
successful cache lookup (head of the list) and such a miss. -/
def syncPoolGet (st : List Buf) (hit : Bool) : Option Buf × List Buf :=
  if hit then
    match st with
    | [] => (none, [])
    | b :: rest => (some b, rest)
  else
    (none, st)

/-- `proxyBufferPool.Get` (proxperfect.go:60-73): `cached` is the value the
inner `sync.Pool.Get` returned.  A `nil` result allocates a fresh buffer of
`config.poolBufSize` bytes (`make([]byte, config.poolBufSize)`); a cache hit
returns the cached buffer unchanged (no length check). -/
def poolGet (cached : Option Buf) (poolBufSize : Nat) : Buf :=
  match cached with
  | none => List.replicate poolBufSize 0
  | some b => b

/-- One call against the buffer pool: `Put` with the given buffer
(proxperfect.go:75-77, stores unconditionally), or `Get` with the given
cache-lookup outcome. -/
inductive PoolOp where
  | put (b : Buf)
  | get (hit : Bool)
deriving Repr, DecidableEq

/-- Runs a call history against the pool from cache state `st`; returns the
list of buffers handed out by the `Get` calls and the final cache state. -/
def runPool (poolBufSize : Nat) : List PoolOp → List Buf → List Buf × List Buf
  | [], st => ([], st)
  | .put b :: ops, st => runPool poolBufSize ops (b :: st)
  | .get hit :: ops, st =>
    let r := syncPoolGet st hit
    let rest := runPool poolBufSize ops r.2
    (poolGet r.1 poolBufSize :: rest.1, rest.2)

/-- Position of one in-flight request inside `ProxyRequestHandler`'s body:
`selected` after the ticket draw and index computation (lines 224-227),
`forwarding` while `proxy.ServeHTTP(w, r)` runs (line 240, entered after the
semaphore acquire on line 233 when admission control is enabled), `finished`
after `ServeHTTP` returned normally and before line 246. -/
inductive ReqPhase where
  | selected
  | forwarding
  | finished
deriving Repr, DecidableEq

/-- One in-flight invocation of `ProxyRequestHandler`: its ticket
(`currentRequestNum`), its backend index (`proxyIdx`) and its current
position in the handler body. -/
structure InFlight where
  ticket : Nat
  idx : Nat
  phase : ReqPhase
deriving Repr, DecidableEq

/-- The globally shared mutable state of the serving process: the backend
list built by `InitProxyState` (one entry per positional argument, fixed
after startup), the shared `requestNum` counter, the per-backend semaphore
availabilities (`size - cur` of each `semaphore.Weighted`), and the set of
in-flight handler invocations. -/
structure SysState where
  proxies : List String
  requestNum : Nat
  connAvail : List Int
  inflight : List InFlight
deriving Repr, DecidableEq

/-- The limiter construction in `InitProxyState` (proxperfect.go:213-216):
when `config.numConnsPerServer` is nonzero, one
`semaphore.NewWeighted(int64(config.numConnsPerServer))` per backend, each
with all `cap` units available; when it is zero, no limiters at all. -/
def initLimiters (cap : Int) (numProxies : Nat) : List Int :=
  if cap ≠ 0 then List.replicate numProxies cap else []

/-- Process state right after `InitProxyState` (proxperfect.go:192-219):
`requestNum = 0`, limiters freshly built, no request in flight. -/
def initState (backends : List String) (cap : Int) : SysState :=
  ⟨backends, 0, initLimiters cap backends.length, []⟩

/-- Available units of backend `b`'s semaphore (`size - cur`), `0` where no
limiter exists. -/
def availAt (s : SysState) (b : Nat) : Int := s.connAvail.getD b 0

/-- Interleaving semantics of concurrent `ProxyRequestHandler` invocations
(proxperfect.go:222-250), parameterised by `cap = config.numConnsPerServer`.
Each constructor is one atomic step of one request-handling goroutine:

* `arrive` — lines 224-225: `atomic.AddUint32` returns the fresh ticket and
  the backend index is computed from it;
* `admitLimited` — line 233 with `cap ≠ 0`: `limiter.Acquire(ctx, 1)`
  completes only when a unit is available (`size - cur ≥ 1`); the context is
  `context.Background()`, so an unavailable semaphore blocks the goroutine
  (no step);
* `admitUnlimited` — `cap = 0`: the guard on line 230 is false, no limiter
  is consulted and the request proceeds straight to `proxy.ServeHTTP`;
* `finishForward` — `proxy.ServeHTTP` (line 240) returns normally;
* `abortForward` — `proxy.ServeHTTP` panics with `http.ErrAbortHandler`
  (the standard `httputil.ReverseProxy` behaviour when copying the response
  to a disconnected client fails); the panic unwinds past lines 246-248, the
  `net/http` server recovers it, and the handler invocation ends without
  executing `limiter.Release(1)`;
* `leaveLimited` / `leaveUnlimited` — lines 246-248 after a normal return:
  with `cap ≠ 0` the unit is released, with `cap = 0` nothing happens. -/
inductive Step (cap : Int) : SysState → SysState → Prop where
  | arrive (s : SysState) :
      Step cap s { s with
        requestNum := nextTicket s.requestNum,
        inflight := ⟨nextTicket s.requestNum,
                     proxyIdxOf (nextTicket s.requestNum) s.proxies.length,
                     .selected⟩ :: s.inflight }
  | admitLimited (s : SysState) (pre post : List InFlight) (t i : Nat)
      (hcap : cap ≠ 0)
      (hq : s.inflight = pre ++ ⟨t, i, .selected⟩ :: post)
      (hav : 1 ≤ s.connAvail.getD i 0) :
      Step cap s { s with
        connAvail := s.connAvail.set i (s.connAvail.getD i 0 - 1),
        inflight := pre ++ ⟨t, i, .forwarding⟩ :: post }
  | admitUnlimited (s : SysState) (pre post : List InFlight) (t i : Nat)
      (hcap : cap = 0)
      (hq : s.inflight = pre ++ ⟨t, i, .selected⟩ :: post) :
      Step cap s { s with inflight := pre ++ ⟨t, i, .forwarding⟩ :: post }
  | finishForward (s : SysState) (pre post : List InFlight) (t i : Nat)
      (hq : s.inflight = pre ++ ⟨t, i, .forwarding⟩ :: post) :
      Step cap s { s with inflight := pre ++ ⟨t, i, .finished⟩ :: post }
  | abortForward (s : SysState) (pre post : List InFlight) (t i : Nat)
      (hq : s.inflight = pre ++ ⟨t, i, .forwarding⟩ :: post) :
      Step cap s { s with inflight := pre ++ post }
  | leaveLimited (s : SysState) (pre post : List InFlight) (t i : Nat)
      (hcap : cap ≠ 0)
      (hq : s.inflight = pre ++ ⟨t, i, .finished⟩ :: post) :
      Step cap s { s with
        connAvail := s.connAvail.set i (s.connAvail.getD i 0 + 1),
        inflight := pre ++ post }
  | leaveUnlimited (s : SysState) (pre post : List InFlight) (t i : Nat)
      (hcap : cap = 0)
      (hq : s.inflight = pre ++ ⟨t, i, .finished⟩ :: post) :
      Step cap s { s with inflight := pre ++ post }

/-- States the serving process can reach from startup, for any number and
interleaving of concurrent inbound requests. -/
inductive Reachable (cap : Int) (backends : List String) : SysState → Prop where
  | init : Reachable cap backends (initState backends cap)
  | step {s s' : SysState} :
      Reachable cap backends s → Step cap s s' → Reachable cap backends s'

/-- Number of in-flight requests bound to backend `b` that are in phase `p`. -/
def countPhaseAt (l : List InFlight) (b : Nat) (p : ReqPhase) : Nat :=
  l.countP (fun r => decide (r.idx = b ∧ r.phase = p))

/-- Number of requests currently forwarding to backend `b`, i.e. running
`proxy.ServeHTTP` against it. -/
def forwardingCount (l : List InFlight) (b : Nat) : Nat :=
  countPhaseAt l b .forwarding

/-- Number of requests currently holding an admission unit of backend `b`
(acquired on line 233 and not yet released on line 247). -/
def heldCount (l : List InFlight) (b : Nat) : Nat :=
  countPhaseAt l b .forwarding + countPhaseAt l b .finished

/-- `RedirectHandler` acting on the full shared process state: the faithful
translation of proxperfect.go:253-263 reads `config.proxyStrings` and the
proxy-list length and writes nothing but the shared counter. -/
def RedirectHandlerFull (cfg : Config) (s : SysState) (urlString : String) :
    SysState × RedirectResponse :=
  let r := RedirectHandler cfg s.requestNum urlString
  ({ s with requestNum := r.1 }, r.2)

lemma listGetD_set_self (l : List Int) (i : Nat) (v : Int) (h : i < l.length) :
    (l.set i v).getD i 0 = v := by
  induction l generalizing i with
  | nil => simp at h
  | cons a l ih =>
    cases i with
    | zero => simp
    | succ i => simpa using ih i (by simpa using h)

lemma listGetD_set_ne (l : List Int) (i j : Nat) (v : Int) (h : i ≠ j) :
    (l.set i v).getD j 0 = l.getD j 0 := by
  induction l generalizing i j with
  | nil => simp
  | cons a l ih =>
    cases i with
    | zero =>
      cases j with
      | zero => exact absurd rfl h
      | succ j => simp
    | succ i =>
      cases j with
      | zero => simp
      | succ j => simpa using ih i j (fun hc => h (by rw [hc]))

lemma listGetD_replicate (n : Nat) (a : Int) (i : Nat) :
    (List.replicate n a).getD i 0 = if i < n then a else 0 := by
  induction n generalizing i with
  | zero => simp
  | succ n ih =>
    cases i with
    | zero => simp
    | succ i =>
      rw [List.replicate_succ, List.getD_cons_succ, ih i]
      simp [Nat.succ_lt_succ_iff]

lemma countPhaseAt_cons_ne (r : InFlight) (l : List InFlight) (b : Nat) (p : ReqPhase)
    (h : ¬(r.idx = b ∧ r.phase = p)) :
    countPhaseAt (r :: l) b p = countPhaseAt l b p := by
  simp [countPhaseAt, List.countP_cons, h]

lemma countPhaseAt_middle_eq (pre post : List InFlight) (r : InFlight) (b : Nat)
    (p : ReqPhase) (h : r.idx = b ∧ r.phase = p) :
    countPhaseAt (pre ++ r :: post) b p = countPhaseAt (pre ++ post) b p + 1 := by
  simp only [countPhaseAt, List.countP_append, List.countP_cons, h.1, h.2]
  simp
  omega

lemma countPhaseAt_middle_ne (pre post : List InFlight) (r : InFlight) (b : Nat)
    (p : ReqPhase) (h : ¬(r.idx = b ∧ r.phase = p)) :
    countPhaseAt (pre ++ r :: post) b p = countPhaseAt (pre ++ post) b p := by
  simp [countPhaseAt, List.countP_append, List.countP_cons, h]

lemma mem_of_mem_middle {α : Type} {r x y : α} {pre post l : List α}
    (hl : l = pre ++ x :: post) (hr : r ∈ pre ++ y :: post) : r = y ∨ r ∈ l := by
  subst hl
  rcases List.mem_append.mp hr with h | h
  · exact Or.inr (List.mem_append_left _ h)
  · rcases List.mem_cons.mp h with h | h
    · exact Or.inl h
    · exact Or.inr (List.mem_append_right _ (List.mem_cons_of_mem _ h))

lemma mem_of_mem_removed {α : Type} {r x : α} {pre post l : List α}
    (hl : l = pre ++ x :: post) (hr : r ∈ pre ++ post) : r ∈ l := by
  subst hl
  rcases List.mem_append.mp hr with h | h
  · exact List.mem_append_left _ h
  · exact List.mem_append_right _ (List.mem_cons_of_mem _ h)

/-- Inductive invariant tying the semaphore availabilities to the in-flight
requests: the backend list is the configured one, one semaphore per backend,
every in-flight request is bound to a real backend, no semaphore is
overdrawn, and available units plus held units never exceed the cap. -/
def GoodState (cap : Int) (backends : List String) (s : SysState) : Prop :=
  s.proxies = backends ∧
  s.connAvail.length = backends.length ∧
  (∀ r ∈ s.inflight, r.idx < backends.length) ∧
  (∀ b, 0 ≤ availAt s b) ∧
  (∀ b, availAt s b + (heldCount s.inflight b : Int) ≤ cap)

lemma goodState_init (cap : Int) (backends : List String) (hcap : 0 < cap) :
    GoodState cap backends (initState backends cap) := by
  have hne : cap ≠ 0 := by omega
  refine ⟨rfl, ?_, ?_, ?_, ?_⟩
  · simp [initState, initLimiters, hne]
  · simp [initState]
  · intro b
    simp only [availAt, initState, initLimiters, if_pos hne, listGetD_replicate]
    split <;> omega
  · intro b
    simp only [availAt, initState, initLimiters, if_pos hne, listGetD_replicate,
      heldCount, countPhaseAt, List.countP_nil]
    split <;> omega


lemma goodState_step {cap : Int} {backends : List String} {s s' : SysState}
    (hcap : 0 < cap) (hN : 0 < backends.length) (hU : backends.length < U32)
    (hg : GoodState cap backends s) (hs : Step cap s s') :
    GoodState cap backends s' := by
  obtain ⟨hp, hl, hidx, hpos, hsum⟩ := hg
  cases hs with
  | arrive =>
    refine ⟨hp, hl, ?_, hpos, ?_⟩
    · intro r hr
      rcases List.mem_cons.mp hr with h | h
      · rw [h]
        show proxyIdxOf (nextTicket s.requestNum) s.proxies.length < backends.length
        rw [hp]
        unfold proxyIdxOf
        rw [Nat.mod_eq_of_lt hU]
        exact Nat.mod_lt _ hN
      · exact hidx r h
    · intro b
      show availAt s b + (heldCount (⟨nextTicket s.requestNum,
        proxyIdxOf (nextTicket s.requestNum) s.proxies.length, .selected⟩
          :: s.inflight) b : Int) ≤ cap
      unfold heldCount
      rw [countPhaseAt_cons_ne _ _ _ _ (by simp), countPhaseAt_cons_ne _ _ _ _ (by simp)]
      exact hsum b
  | admitLimited pre post t i hcap2 hq hav =>
    have hmem : (⟨t, i, .selected⟩ : InFlight) ∈ s.inflight := by
      rw [hq]; exact List.mem_append_right _ (List.mem_cons_self _ _)
    have hiN : i < backends.length := hidx _ hmem
    have hilen : i < s.connAvail.length := by rw [hl]; exact hiN
    refine ⟨hp, by simpa using hl, ?_, ?_, ?_⟩
    · intro r hr
      rcases mem_of_mem_middle hq hr with h | h
      · rw [h]; exact hiN
      · exact hidx r h
    · intro b
      by_cases hbi : b = i
      · subst hbi
        show 0 ≤ (s.connAvail.set b (s.connAvail.getD b 0 - 1)).getD b 0
        rw [listGetD_set_self _ _ _ hilen]
        have := hpos b
        unfold availAt at this
        omega
      · show 0 ≤ (s.connAvail.set i (s.connAvail.getD i 0 - 1)).getD b 0
        rw [listGetD_set_ne _ _ _ _ (fun hc => hbi hc.symm)]
        exact hpos b
    · intro b
      by_cases hbi : b = i
      · subst hbi
        have h1 : countPhaseAt (pre ++ ⟨t, b, .forwarding⟩ :: post) b .forwarding
            = countPhaseAt (pre ++ post) b .forwarding + 1 :=
          countPhaseAt_middle_eq _ _ _ _ _ ⟨rfl, rfl⟩
        have h2 : countPhaseAt (pre ++ ⟨t, b, .forwarding⟩ :: post) b .finished
            = countPhaseAt (pre ++ post) b .finished :=
          countPhaseAt_middle_ne _ _ _ _ _ (by simp)
        have h3 : countPhaseAt (pre ++ ⟨t, b, .selected⟩ :: post) b .forwarding
            = countPhaseAt (pre ++ post) b .forwarding :=
          countPhaseAt_middle_ne _ _ _ _ _ (by simp)
        have h4 : countPhaseAt (pre ++ ⟨t, b, .selected⟩ :: post) b .finished
            = countPhaseAt (pre ++ post) b .finished :=
          countPhaseAt_middle_ne _ _ _ _ _ (by simp)
        have h5 := hsum b
        rw [hq] at h5
        unfold heldCount at h5
        rw [h3, h4] at h5
        unfold availAt at h5
        show (s.connAvail.set b (s.connAvail.getD b 0 - 1)).getD b 0
          + (heldCount (pre ++ ⟨t, b, .forwarding⟩ :: post) b : Int) ≤ cap
        unfold heldCount
        rw [h1, h2, listGetD_set_self _ _ _ hilen]
        push_cast
        push_cast at h5
        omega
      · have h1 : countPhaseAt (pre ++ ⟨t, i, .forwarding⟩ :: post) b .forwarding
            = countPhaseAt (pre ++ post) b .forwarding :=
          countPhaseAt_middle_ne _ _ _ _ _ (fun hc => hbi hc.1.symm)
        have h2 : countPhaseAt (pre ++ ⟨t, i, .forwarding⟩ :: post) b .finished
            = countPhaseAt (pre ++ post) b .finished :=
          countPhaseAt_middle_ne _ _ _ _ _ (fun hc => hbi hc.1.symm)
        have h3 : countPhaseAt (pre ++ ⟨t, i, .selected⟩ :: post) b .forwarding
            = countPhaseAt (pre ++ post) b .forwarding :=
          countPhaseAt_middle_ne _ _ _ _ _ (fun hc => hbi hc.1.symm)
        have h4 : countPhaseAt (pre ++ ⟨t, i, .selected⟩ :: post) b .finished
            = countPhaseAt (pre ++ post) b .finished :=
          countPhaseAt_middle_ne _ _ _ _ _ (fun hc => hbi hc.1.symm)
        have h5 := hsum b
        rw [hq] at h5
        unfold heldCount at h5
        rw [h3, h4] at h5
        unfold availAt at h5
        show (s.connAvail.set i (s.connAvail.getD i 0 - 1)).getD b 0
          + (heldCount (pre ++ ⟨t, i, .forwarding⟩ :: post) b : Int) ≤ cap
        unfold heldCount
        rw [h1, h2, listGetD_set_ne _ _ _ _ (fun hc => hbi hc.symm)]
        exact h5
  | admitUnlimited pre post t i hcap2 hq => omega
  | finishForward pre post t i hq =>
    refine ⟨hp, hl, ?_, hpos, ?_⟩
    · intro r hr
      rcases mem_of_mem_middle hq hr with h | h
      · rw [h]
        have hmem : (⟨t, i, .forwarding⟩ : InFlight) ∈ s.inflight := by
          rw [hq]; exact List.mem_append_right _ (List.mem_cons_self _ _)
        exact hidx ⟨t, i, .forwarding⟩ hmem
      · exact hidx r h
    · intro b
      by_cases hbi : b = i
      · subst hbi
        have h1 : countPhaseAt (pre ++ ⟨t, b, .finished⟩ :: post) b .forwarding
            = countPhaseAt (pre ++ post) b .forwarding :=
          countPhaseAt_middle_ne _ _ _ _ _ (by simp)
        have h2 : countPhaseAt (pre ++ ⟨t, b, .finished⟩ :: post) b .finished
            = countPhaseAt (pre ++ post) b .finished + 1 :=
          countPhaseAt_middle_eq _ _ _ _ _ ⟨rfl, rfl⟩
        have h3 : countPhaseAt (pre ++ ⟨t, b, .forwarding⟩ :: post) b .forwarding
            = countPhaseAt (pre ++ post) b .forwarding + 1 :=
          countPhaseAt_middle_eq _ _ _ _ _ ⟨rfl, rfl⟩
        have h4 : countPhaseAt (pre ++ ⟨t, b, .forwarding⟩ :: post) b .finished
            = countPhaseAt (pre ++ post) b .finished :=
          countPhaseAt_middle_ne _ _ _ _ _ (by simp)
        have h5 := hsum b
        rw [hq] at h5
        unfold heldCount at h5
        rw [h3, h4] at h5
        show availAt s b + (heldCount (pre ++ ⟨t, b, .finished⟩ :: post) b : Int) ≤ cap
        unfold heldCount
        rw [h1, h2]
        push_cast
        push_cast at h5
        omega
      · have h1 : countPhaseAt (pre ++ ⟨t, i, .finished⟩ :: post) b .forwarding
            = countPhaseAt (pre ++ post) b .forwarding :=
          countPhaseAt_middle_ne _ _ _ _ _ (fun hc => hbi hc.1.symm)
        have h2 : countPhaseAt (pre ++ ⟨t, i, .finished⟩ :: post) b .finished
            = countPhaseAt (pre ++ post) b .finished :=
          countPhaseAt_middle_ne _ _ _ _ _ (fun hc => hbi hc.1.symm)
        have h3 : countPhaseAt (pre ++ ⟨t, i, .forwarding⟩ :: post) b .forwarding
            = countPhaseAt (pre ++ post) b .forwarding :=
          countPhaseAt_middle_ne _ _ _ _ _ (fun hc => hbi hc.1.symm)
        have h4 : countPhaseAt (pre ++ ⟨t, i, .forwarding⟩ :: post) b .finished
            = countPhaseAt (pre ++ post) b .finished :=
          countPhaseAt_middle_ne _ _ _ _ _ (fun hc => hbi hc.1.symm)
        have h5 := hsum b
        rw [hq] at h5
        unfold heldCount at h5
        rw [h3, h4] at h5
        show availAt s b + (heldCount (pre ++ ⟨t, i, .finished⟩ :: post) b : Int) ≤ cap
        unfold heldCount
        rw [h1, h2]
        exact h5
  | abortForward pre post t i hq =>
    refine ⟨hp, hl, ?_, hpos, ?_⟩
    · intro r hr
      exact hidx r (mem_of_mem_removed hq hr)
    · intro b
      have h5 := hsum b
      rw [hq] at h5
      unfold heldCount at h5
      show availAt s b + (heldCount (pre ++ post) b : Int) ≤ cap
      unfold heldCount
      by_cases hbi : b = i
      · subst hbi
        have h1 : countPhaseAt (pre ++ ⟨t, b, .forwarding⟩ :: post) b .forwarding
            = countPhaseAt (pre ++ post) b .forwarding + 1 :=
          countPhaseAt_middle_eq _ _ _ _ _ ⟨rfl, rfl⟩
        have h2 : countPhaseAt (pre ++ ⟨t, b, .forwarding⟩ :: post) b .finished
            = countPhaseAt (pre ++ post) b .finished :=
          countPhaseAt_middle_ne _ _ _ _ _ (by simp)
        rw [h1, h2] at h5
        push_cast at h5 ⊢
        omega
      · have h1 : countPhaseAt (pre ++ ⟨t, i, .forwarding⟩ :: post) b .forwarding
            = countPhaseAt (pre ++ post) b .forwarding :=
          countPhaseAt_middle_ne _ _ _ _ _ (fun hc => hbi hc.1.symm)
        have h2 : countPhaseAt (pre ++ ⟨t, i, .forwarding⟩ :: post) b .finished
            = countPhaseAt (pre ++ post) b .finished :=
          countPhaseAt_middle_ne _ _ _ _ _ (fun hc => hbi hc.1.symm)
        rw [h1, h2] at h5
        exact h5
  | leaveLimited pre post t i hcap2 hq =>
    have hmem : (⟨t, i, .finished⟩ : InFlight) ∈ s.inflight := by
      rw [hq]; exact List.mem_append_right _ (List.mem_cons_self _ _)
    have hiN : i < backends.length := hidx _ hmem
    have hilen : i < s.connAvail.length := by rw [hl]; exact hiN
    refine ⟨hp, by simpa using hl, ?_, ?_, ?_⟩
    · intro r hr
      exact hidx r (mem_of_mem_removed hq hr)
    · intro b
      by_cases hbi : b = i
      · subst hbi
        show 0 ≤ (s.connAvail.set b (s.connAvail.getD b 0 + 1)).getD b 0
        rw [listGetD_set_self _ _ _ hilen]
        have := hpos b
        unfold availAt at this
        omega
      · show 0 ≤ (s.connAvail.set i (s.connAvail.getD i 0 + 1)).getD b 0
        rw [listGetD_set_ne _ _ _ _ (fun hc => hbi hc.symm)]
        exact hpos b
    · intro b
      by_cases hbi : b = i
      · subst hbi
        have h3 : countPhaseAt (pre ++ ⟨t, b, .finished⟩ :: post) b .forwarding
            = countPhaseAt (pre ++ post) b .forwarding :=
          countPhaseAt_middle_ne _ _ _ _ _ (by simp)
        have h4 : countPhaseAt (pre ++ ⟨t, b, .finished⟩ :: post) b .finished
            = countPhaseAt (pre ++ post) b .finished + 1 :=
          countPhaseAt_middle_eq _ _ _ _ _ ⟨rfl, rfl⟩
        have h5 := hsum b
        rw [hq] at h5
        unfold heldCount at h5
        rw [h3, h4] at h5
        show (s.connAvail.set b (s.connAvail.getD b 0 + 1)).getD b 0
          + (heldCount (pre ++ post) b : Int) ≤ cap
        unfold heldCount
        rw [listGetD_set_self _ _ _ hilen]
        unfold availAt at h5
        push_cast
        push_cast at h5
        omega
      · have h3 : countPhaseAt (pre ++ ⟨t, i, .finished⟩ :: post) b .forwarding
            = countPhaseAt (pre ++ post) b .forwarding :=
          countPhaseAt_middle_ne _ _ _ _ _ (fun hc => hbi hc.1.symm)
        have h4 : countPhaseAt (pre ++ ⟨t, i, .finished⟩ :: post) b .finished
            = countPhaseAt (pre ++ post) b .finished :=
          countPhaseAt_middle_ne _ _ _ _ _ (fun hc => hbi hc.1.symm)
        have h5 := hsum b
        rw [hq] at h5
        unfold heldCount at h5
        rw [h3, h4] at h5
        show (s.connAvail.set i (s.connAvail.getD i 0 + 1)).getD b 0
          + (heldCount (pre ++ post) b : Int) ≤ cap
        unfold heldCount
        rw [listGetD_set_ne _ _ _ _ (fun hc => hbi hc.symm)]
        exact h5
  | leaveUnlimited pre post t i hcap2 hq => omega

lemma reachable_good {cap : Int} {backends : List String} {s : SysState}
    (hcap : 0 < cap) (hN : 0 < backends.length) (hU : backends.length < U32)
    (hr : Reachable cap backends s) : GoodState cap backends s := by
  induction hr with
  | init => exact goodState_init _ _ hcap
  | step hprev hstep ih => exact goodState_step hcap hN hU ih hstep

lemma poolGet_length (size : Nat) (st : List Buf) (hit : Bool)
    (hst : ∀ b ∈ st, size ≤ b.length) :
    size ≤ (poolGet (syncPoolGet st hit).1 size).length := by
  unfold syncPoolGet
  cases hit with
  | false => simp [poolGet]
  | true =>
    cases st with
    | nil => simp [poolGet]
    | cons b rest =>
      simp only [if_true]
      exact hst b (List.mem_cons_self _ _)

lemma syncPoolGet_mem (st : List Buf) (hit : Bool) (b : Buf)
    (hb : b ∈ (syncPoolGet st hit).2) : b ∈ st := by
  unfold syncPoolGet at hb
  cases hit with
  | false => exact hb
  | true =>
    cases st with
    | nil => simp at hb
    | cons x rest =>
      simp only [if_true] at hb
      exact List.mem_cons_of_mem _ hb

lemma runPool_length_inv (size : Nat) : ∀ (ops : List PoolOp) (st : List Buf),
    (∀ b : Buf, PoolOp.put b ∈ ops → size ≤ b.length) →
    (∀ b ∈ st, size ≤ b.length) →
    ∀ b ∈ (runPool size ops st).1, size ≤ b.length := by
  intro ops
  induction ops with
  | nil =>
    intro st hput hst b hb
    simp [runPool] at hb
  | cons op ops ih =>
    intro st hput hst b hb
    cases op with
    | put bp =>
      simp only [runPool] at hb
      refine ih (bp :: st) (fun b2 hb2 => hput b2 (List.mem_cons_of_mem _ hb2)) ?_ b hb
      intro b2 hb2
      rcases List.mem_cons.mp hb2 with h | h
      · rw [h]; exact hput bp (List.mem_cons_self _ _)
      · exact hst b2 h
    | get hit =>
      simp only [runPool] at hb
      rcases List.mem_cons.mp hb with h | h
      · rw [h]
        exact poolGet_length size st hit hst
      · refine ih (syncPoolGet st hit).2 (fun b2 hb2 => hput b2 (List.mem_cons_of_mem _ hb2))
          ?_ b h
        intro b2 hb2
        exact hst b2 (syncPoolGet_mem st hit b2 hb2)

lemma negCap_invariant {cap : Int} {backends : List String} {s : SysState}
    (hc : cap < 0) (hr : Reachable cap backends s) :
    s.connAvail = List.replicate backends.length cap ∧
    ∀ r ∈ s.inflight, r.phase = .selected := by
  induction hr with
  | init =>
    have hne : cap ≠ 0 := by omega
    constructor
    · show initLimiters cap backends.length = List.replicate backends.length cap
      unfold initLimiters
      rw [if_pos hne]
    · simp [initState]
  | step hprev hstep ih =>
    obtain ⟨hca, hsel⟩ := ih
    cases hstep with
    | arrive =>
      refine ⟨hca, ?_⟩
      intro r hr2
      rcases List.mem_cons.mp hr2 with h | h
      · rw [h]
      · exact hsel r h
    | admitLimited pre post t i hcap2 hq hav =>
      exfalso
      rw [hca, listGetD_replicate] at hav
      revert hav
      split <;> omega
    | admitUnlimited pre post t i hcap2 hq => omega
    | finishForward pre post t i hq =>
      exfalso
      have hph := hsel ⟨t, i, .forwarding⟩
        (by rw [hq]; exact List.mem_append_right _ (List.mem_cons_self _ _))
      simp at hph
    | abortForward pre post t i hq =>
      exfalso
      have hph := hsel ⟨t, i, .forwarding⟩
        (by rw [hq]; exact List.mem_append_right _ (List.mem_cons_self _ _))
      simp at hph
    | leaveLimited pre post t i hcap2 hq =>
      exfalso
      have hph := hsel ⟨t, i, .finished⟩
        (by rw [hq]; exact List.mem_append_right _ (List.mem_cons_self _ _))
      simp at hph
    | leaveUnlimited pre post t i hcap2 hq => omega

/-- C1: for every backend whose configured admission cap is greater than 0,
at no reachable instant of the system do more than cap forwards run
concurrently against that backend, for any number and interleaving of
concurrent inbound requests handled by `ProxyRequestHandler`. -/
theorem c1_admission_cap_never_exceeded (cap : Int) (backends : List String)
    (s : SysState) (b : Nat) (hcap : 0 < cap) (hN : 0 < backends.length)
    (hU : backends.length < U32) (hr : Reachable cap backends s) :
    (forwardingCount s.inflight b : Int) ≤ cap := by
  obtain ⟨-, -, -, hpos, hsum⟩ := reachable_good hcap hN hU hr
  have h1 := hsum b
  have h2 := hpos b
  unfold heldCount at h1
  unfold forwardingCount
  push_cast at h1 ⊢
  omega

/-- Witness for C1: one backend, cap 1, initial state. -/
theorem c1_witness :
    (forwardingCount (initState ["http://s1"] 1).inflight 0 : Int) ≤ 1 :=
  c1_admission_cap_never_exceeded 1 ["http://s1"] _ 0 (by norm_num)
    (by norm_num) (by norm_num [U32]) Reachable.init

/-- C2: the code violates the claim.  With cap 1 and one backend, the
sequence arrive, acquire, abort (client disconnects mid-forward, so
`proxy.ServeHTTP` panics with `http.ErrAbortHandler` and the non-deferred
`limiter.Release(1)` on line 247 never runs) reaches a state with no
request in flight yet zero available units, although the limiter was
created with one unit: the permit has leaked permanently. -/
theorem c2_permit_leak_on_abort :
    Reachable 1 ["http://b"] ⟨["http://b"], 1, [0], []⟩ ∧
    initLimiters 1 1 = [1] := by
  constructor
  · have r0 : Reachable 1 ["http://b"] ⟨["http://b"], 0, [1], []⟩ := Reachable.init
    have r1 : Reachable 1 ["http://b"] ⟨["http://b"], 1, [1], [⟨1, 0, .selected⟩]⟩ :=
      Reachable.step r0
        (show Step 1 ⟨["http://b"], 0, [1], []⟩ ⟨["http://b"], 1, [1], [⟨1, 0, .selected⟩]⟩
          from Step.arrive _)
    have r2 : Reachable 1 ["http://b"] ⟨["http://b"], 1, [0], [⟨1, 0, .forwarding⟩]⟩ :=
      Reachable.step r1
        (show Step 1 ⟨["http://b"], 1, [1], [⟨1, 0, .selected⟩]⟩
            ⟨["http://b"], 1, [0], [⟨1, 0, .forwarding⟩]⟩
          from Step.admitLimited _ [] [] 1 0 (by norm_num) rfl (by decide))
    exact Reachable.step r2
      (show Step 1 ⟨["http://b"], 1, [0], [⟨1, 0, .forwarding⟩]⟩
          ⟨["http://b"], 1, [0], []⟩
        from Step.abortForward _ [] [] 1 0 rfl)
  · decide

/-- C3 counterexample: the claimed sequence `[(T+k) mod N]` starting from
the initial ticket state (`T = 0`, stored counter `0`) would begin with
backend 0, but the counter is incremented before use, so the code starts
with backend 1: with `N = 2`, three sequential requests select `[1, 0, 1]`,
not `[0, 1, 0]`. -/
theorem c3_counterexample :
    selectSeq 2 3 0 = [1, 0, 1] ∧
    selectSeq 2 3 0 ≠ (List.range 3).map (fun k => (0 + k) % 2) := by
  decide

/-- C3 amended: `atomic.AddUint32` returns the incremented value, so the
first of the `M` sequential requests uses ticket `T+1` (modulo `2^32`)
where `T` is the stored counter value before it: the selected-backend
sequence is `[((T+1+k) mod 2^32) mod N for k in 0..M-1]`; in particular
from the initial state the indices cycle `1, 2, ..., N-1, 0, 1, ...`. -/
theorem c3_sequential_round_robin (N M T : Nat) (hN : 0 < N) (hU : N < U32) :
    selectSeq N M T = (List.range M).map (fun k => ((T + 1 + k) % U32) % N) := by
  induction M generalizing T with
  | zero => simp [selectSeq]
  | succ M ih =>
    have key : ∀ k : Nat, (nextTicket T + 1 + k) % U32 = (T + 1 + (k + 1)) % U32 := by
      intro k
      unfold nextTicket
      rw [show (T + 1) % U32 + 1 + k = (T + 1) % U32 + (1 + k) from by omega,
        Nat.mod_add_mod]
      congr 1
      omega
    have hfun : (fun k => (nextTicket T + 1 + k) % U32 % N)
        = ((fun k => (T + 1 + k) % U32 % N) ∘ Nat.succ) := by
      funext k
      show (nextTicket T + 1 + k) % U32 % N = (T + 1 + (k + 1)) % U32 % N
      rw [key k]
    show proxyIdxOf (nextTicket T) N :: selectSeq N M (nextTicket T) = _
    rw [ih, List.range_succ_eq_map, List.map_cons, List.map_map, hfun]
    congr 1
    unfold proxyIdxOf nextTicket
    rw [Nat.mod_eq_of_lt hU]

/-- Witness for the amended C3: three backends, five requests, stored
counter 1 before the first request. -/
theorem c3_witness :
    selectSeq 3 5 1 = (List.range 5).map (fun k => ((1 + 1 + k) % U32) % 3) :=
  c3_sequential_round_robin 3 5 1 (by norm_num) (by norm_num [U32])

/-- C4 counterexample: in redirect mode with backends `[B0, B1]` and code
302, the first request from the initial ticket state is redirected to
`B1 + path` (ticket 1, index `1 mod 2 = 1`), not to `B0 + path` as the
claim states. -/
theorem c4_counterexample :
    (RedirectHandler ⟨false, 8080, ["http://a", "http://b"], 131072, 10, 302⟩ 0 "/p").2.location
      = "http://b" ++ "/p" ∧
    "http://b" ++ "/p" ≠ "http://a" ++ "/p" := by
  constructor
  · rfl
  · decide

/-- C4 amended: in redirect mode with exactly two backends `[B0, B1]` and
redirect code 302, starting from the initial ticket state, the first
request receives a 302 redirect to `B1` concatenated with its path, the
second to `B0` concatenated with its path, and the third again to `B1`
concatenated with its path. -/
theorem c4_redirect_sequence (B0 B1 p1 p2 p3 : String) :
    (RedirectHandler ⟨false, 8080, [B0, B1], 131072, 10, 302⟩ 0 p1).2
      = ⟨B1 ++ p1, 302⟩ ∧
    (RedirectHandler ⟨false, 8080, [B0, B1], 131072, 10, 302⟩
      (RedirectHandler ⟨false, 8080, [B0, B1], 131072, 10, 302⟩ 0 p1).1 p2).2
      = ⟨B0 ++ p2, 302⟩ ∧
    (RedirectHandler ⟨false, 8080, [B0, B1], 131072, 10, 302⟩
      (RedirectHandler ⟨false, 8080, [B0, B1], 131072, 10, 302⟩
        (RedirectHandler ⟨false, 8080, [B0, B1], 131072, 10, 302⟩ 0 p1).1 p2).1 p3).2
      = ⟨B1 ++ p3, 302⟩ := by
  refine ⟨rfl, ?_, ?_⟩ <;> simp [RedirectHandler, nextTicket, proxyIdxOf, U32]

/-- C5: every invocation of either handler increments the shared ticket
exactly once with wrap at `2^32` and uses backend index `ticket mod N`
(given `N` fits in `uint32`); `RedirectHandler` mutates nothing but the
ticket; and no step of the proxy-mode system ever changes the backend
list, while the ticket changes only at handler entry and only by one
wrapped increment. -/
theorem c5_ticket_discipline :
    (∀ t numProxies : Nat, (selectBackend t numProxies).1 = (t + 1) % U32) ∧
    (∀ t numProxies : Nat, numProxies < U32 →
      (selectBackend t numProxies).2 = (selectBackend t numProxies).1 % numProxies) ∧
    (∀ (cfg : Config) (s : SysState) (url : String),
      (RedirectHandlerFull cfg s url).1
        = { s with requestNum := (s.requestNum + 1) % U32 }) ∧
    (∀ (cap : Int) (s s' : SysState), Step cap s s' → s'.proxies = s.proxies) ∧
    (∀ (cap : Int) (s s' : SysState), Step cap s s' →
      s'.requestNum = s.requestNum ∨ s'.requestNum = (s.requestNum + 1) % U32) := by
  refine ⟨fun t n => rfl, ?_, fun cfg s url => rfl, ?_, ?_⟩
  · intro t n h
    show proxyIdxOf (nextTicket t) n = nextTicket t % n
    unfold proxyIdxOf
    rw [Nat.mod_eq_of_lt h]
  · intro cap s s' hs
    cases hs <;> rfl
  · intro cap s s' hs
    cases hs with
    | arrive => exact Or.inr rfl
    | admitLimited pre post t i hcap2 hq hav => exact Or.inl rfl
    | admitUnlimited pre post t i hcap2 hq => exact Or.inl rfl
    | finishForward pre post t i hq => exact Or.inl rfl
    | abortForward pre post t i hq => exact Or.inl rfl
    | leaveLimited pre post t i hcap2 hq => exact Or.inl rfl
    | leaveUnlimited pre post t i hcap2 hq => exact Or.inl rfl

/-- Witness for C5: concrete selection, a concrete redirect invocation, and
a concrete arrive step. -/
theorem c5_witness :
    (selectBackend 41 7).1 = 42 % U32 ∧
    (selectBackend 41 7).2 = (selectBackend 41 7).1 % 7 ∧
    (RedirectHandlerFull ⟨false, 8080, ["u"], 0, 10, 302⟩ ⟨["u"], 5, [], []⟩ "/x").1
      = (⟨["u"], (5 + 1) % U32, [], []⟩ : SysState) ∧
    (["u"] : List String) = ["u"] ∧
    ((1 : Nat) % U32 = 0 ∨ (1 : Nat) % U32 = (0 + 1) % U32) := by
  refine ⟨c5_ticket_discipline.1 41 7,
    c5_ticket_discipline.2.1 41 7 (by norm_num [U32]),
    c5_ticket_discipline.2.2.1 _ _ "/x",
    c5_ticket_discipline.2.2.2.1 1 _ _ (Step.arrive (initState ["u"] 1)),
    c5_ticket_discipline.2.2.2.2 1 _ _ (Step.arrive (initState ["u"] 1))⟩

/-- C6 counterexample: the pool stores whatever `Put` receives and `Get`
returns a cache hit unchecked, so after `Put` of a 1-byte buffer a `Get`
with configured size 4 returns that 1-byte buffer. -/
theorem c6_counterexample :
    (runPool 4 [PoolOp.put [0], PoolOp.get true] []).1 = [[0]] ∧
    ¬ ∀ b ∈ (runPool 4 [PoolOp.put [0], PoolOp.get true] []).1, 4 ≤ b.length := by
  decide

/-- C6 amended: provided every buffer handed to `Put` is at least the
configured size long (which holds for every `Put` the program performs,
since `ReverseProxy` only returns buffers it obtained from `Get`), `Get`
never returns a buffer shorter than the configured size; and a `Get` that
misses the cache always succeeds by allocating a fresh buffer of exactly
the configured size. -/
theorem c6_pool_get_length (size : Nat) (ops : List PoolOp) (st : List Buf)
    (hput : ∀ b : Buf, PoolOp.put b ∈ ops → size ≤ b.length)
    (hst : ∀ b ∈ st, size ≤ b.length) :
    (∀ b ∈ (runPool size ops st).1, size ≤ b.length) ∧
    (poolGet none size).length = size := by
  refine ⟨runPool_length_inv size ops st hput hst, ?_⟩
  simp [poolGet]

/-- Witness for the amended C6: size 2, one sufficient put, one hit and one
miss. -/
theorem c6_witness :
    2 ≤ ((runPool 2 [PoolOp.put [9, 9, 9], PoolOp.get true, PoolOp.get false] []).1.headD []).length := by
  have h := c6_pool_get_length 2 [PoolOp.put [9, 9, 9], PoolOp.get true, PoolOp.get false] []
    (by intro b hb; simp at hb; subst hb; decide) (by decide)
  exact h.1 _ (by decide)

/-- C7: in redirect mode every inbound request is answered with a redirect
whose target is exactly the selected backend's base URI concatenated with
the request's path and query, whose code is exactly the configured one,
where the selected index is in bounds, and which touches neither the
admission state nor the in-flight set (no permit, no forward). -/
theorem c7_redirect_contract (cfg : Config) (s : SysState) (url : String)
    (hN : 0 < cfg.proxyStrings.length) (hU : cfg.proxyStrings.length < U32) :
    (RedirectHandlerFull cfg s url).2.location
      = cfg.proxyStrings.getD (proxyIdxOf (nextTicket s.requestNum) cfg.proxyStrings.length) ""
        ++ url ∧
    proxyIdxOf (nextTicket s.requestNum) cfg.proxyStrings.length < cfg.proxyStrings.length ∧
    (RedirectHandlerFull cfg s url).2.code = cfg.redirectCode ∧
    (RedirectHandlerFull cfg s url).1.connAvail = s.connAvail ∧
    (RedirectHandlerFull cfg s url).1.inflight = s.inflight := by
  refine ⟨rfl, ?_, rfl, rfl, rfl⟩
  unfold proxyIdxOf
  rw [Nat.mod_eq_of_lt hU]
  exact Nat.mod_lt _ hN

/-- Witness for C7: one backend, code 301, request path and query. -/
theorem c7_witness :
    (RedirectHandlerFull ⟨false, 8080, ["http://a"], 0, 10, 301⟩
        ⟨["http://a"], 0, [], []⟩ "/q?x=1").2.location
      = ["http://a"].getD (proxyIdxOf (nextTicket 0) (List.length ["http://a"])) "" ++ "/q?x=1" ∧
    proxyIdxOf (nextTicket 0) (List.length ["http://a"]) < List.length ["http://a"] ∧
    (RedirectHandlerFull ⟨false, 8080, ["http://a"], 0, 10, 301⟩
        ⟨["http://a"], 0, [], []⟩ "/q?x=1").2.code = 301 := by
  have h := c7_redirect_contract ⟨false, 8080, ["http://a"], 0, 10, 301⟩
    ⟨["http://a"], 0, [], []⟩ "/q?x=1" (by norm_num) (by norm_num [U32])
  exact ⟨h.1, h.2.1, h.2.2.1⟩

/-- C8: with an empty backend list the process exits before serving, and
whenever parsing succeeds (the precondition for any handler to run) the
backend list is non-empty, so the modulus used for index derivation is
never zero and every derived index is in bounds for every ticket a
`uint32` counter can hold. -/
theorem c8_no_backends_fatal :
    (∀ (sv bv : Bool) (lp bs nc rc : Int), ParseArguments sv bv lp bs nc rc [] = none) ∧
    (∀ (sv bv : Bool) (lp bs nc rc : Int) (args : List String) (cfg : Config),
      ParseArguments sv bv lp bs nc rc args = some cfg →
      cfg.proxyStrings ≠ [] ∧
      ∀ ticket : Nat, ticket < U32 →
        proxyIdxOf ticket cfg.proxyStrings.length < cfg.proxyStrings.length) := by
  constructor
  · intro sv bv lp bs nc rc
    simp [ParseArguments]
  · intro sv bv lp bs nc rc args cfg h
    unfold ParseArguments at h
    split_ifs at h with h1 h2
    have hcfg : cfg.proxyStrings = args := by
      have := Option.some.inj h
      rw [← this]
    have hlen : 0 < args.length := by omega
    constructor
    · rw [hcfg]
      intro hc
      rw [hc] at hlen
      simp at hlen
    · intro ticket ht
      rw [hcfg]
      unfold proxyIdxOf
      rcases Nat.eq_zero_or_pos (args.length % U32) with hz | hpz
      · have hdvd : U32 ∣ args.length := Nat.dvd_of_mod_eq_zero hz
        have hge : U32 ≤ args.length := Nat.le_of_dvd hlen hdvd
        rw [hz, Nat.mod_zero]
        omega
      · have h1 := Nat.mod_lt ticket hpz
        have h2 := Nat.mod_le args.length U32
        omega

/-- Witness for C8: empty argument list exits, a one-backend parse yields a
non-empty list and an in-bounds index for ticket 3. -/
theorem c8_witness :
    ParseArguments false false 8080 131072 10 0 [] = none ∧
    (⟨false, 8080, ["http://a"], 131072, 10, 0⟩ : Config).proxyStrings ≠ [] ∧
    proxyIdxOf 3 (List.length ["http://a"]) < List.length ["http://a"] := by
  have h2 := c8_no_backends_fatal.2 false false 8080 131072 10 0 ["http://a"]
    ⟨false, 8080, ["http://a"], 131072, 10, 0⟩ rfl
  exact ⟨c8_no_backends_fatal.1 false false 8080 131072 10 0, h2.1, h2.2 3 (by norm_num [U32])⟩

/-- C9: with cap 0 admission control is disabled: no step of the system
ever touches the (empty) limiter state, and a request that has computed
its backend index can always proceed straight to forwarding, whatever the
rest of the state, without waiting for any other request. -/
theorem c9_cap_zero_no_limiter :
    (∀ s s' : SysState, Step 0 s s' → s'.connAvail = s.connAvail) ∧
    (∀ (s : SysState) (pre post : List InFlight) (t i : Nat),
      s.inflight = pre ++ ⟨t, i, .selected⟩ :: post →
      Step 0 s { s with inflight := pre ++ ⟨t, i, .forwarding⟩ :: post }) := by
  constructor
  · intro s s' hs
    cases hs with
    | admitLimited pre post t i hcap2 hq hav => exact absurd rfl hcap2
    | leaveLimited pre post t i hcap2 hq => exact absurd rfl hcap2
    | arrive => rfl
    | admitUnlimited pre post t i hcap2 hq => rfl
    | finishForward pre post t i hq => rfl
    | abortForward pre post t i hq => rfl
    | leaveUnlimited pre post t i hcap2 hq => rfl
  · intro s pre post t i hq
    exact Step.admitUnlimited s pre post t i rfl hq

/-- Witness for C9: a selected request in a one-backend system with cap 0
steps to forwarding immediately, leaving the limiter state untouched. -/
theorem c9_witness :
    Step 0 (⟨["u"], 1, [], [⟨1, 0, .selected⟩]⟩ : SysState)
      { (⟨["u"], 1, [], [⟨1, 0, .selected⟩]⟩ : SysState) with
        inflight := [] ++ ⟨1, 0, .forwarding⟩ :: [] } ∧
    ([] : List Int) = [] := by
  refine ⟨c9_cap_zero_no_limiter.2 _ [] [] 1 0 rfl, ?_⟩
  exact c9_cap_zero_no_limiter.1 _ _
    (c9_cap_zero_no_limiter.2 (⟨["u"], 1, [], [⟨1, 0, .selected⟩]⟩ : SysState) [] [] 1 0 rfl)

/-- C10: only cap 0 disables admission control: for every nonzero cap
`InitProxyState` builds one weighted limiter of that capacity per backend,
and with a negative cap no acquisition ever succeeds, so no request is
ever admitted to forwarding in any reachable state. -/
theorem c10_negative_cap_blocks_all :
    (∀ (cap : Int) (n : Nat), cap ≠ 0 → initLimiters cap n = List.replicate n cap) ∧
    (∀ (cap : Int) (backends : List String) (s : SysState), cap < 0 →
      Reachable cap backends s → ∀ b, forwardingCount s.inflight b = 0) := by
  constructor
  · intro cap n hc
    unfold initLimiters
    rw [if_pos hc]
  · intro cap backends s hc hr b
    obtain ⟨-, hsel⟩ := negCap_invariant hc hr
    unfold forwardingCount countPhaseAt
    rw [List.countP_eq_zero]
    intro r hrm
    have hph := hsel r hrm
    simp [hph]

/-- Witness for C10: cap -3 builds two limiters of capacity -3, and the
initial state of a one-backend system with cap -3 has no forwarding
request. -/
theorem c10_witness :
    initLimiters (-3) 2 = [-3, -3] ∧
    forwardingCount (initState ["u"] (-3)).inflight 0 = 0 := by
  refine ⟨?_, c10_negative_cap_blocks_all.2 (-3) ["u"] _ (by norm_num) Reachable.init 0⟩
  rw [c10_negative_cap_blocks_all.1 (-3) 2 (by norm_num)]
  rfl
